import Mathlib

/-!
Verification of the project-structure inference and target-path resolution
engine of the translate-i18n VS Code extension (class I18nProjectManager).

The TypeScript source is shallowly embedded here:

* JS strings are Lean String values; all algorithms work structurally on the
  underlying character lists so that every definition is executable and
  kernel-reducible.
* The two anchored language-code regular expressions are embedded as an
  explicit backtracking matcher that enumerates alternatives in exactly the
  order the JS regex engine does (greedy counted repetition, optional groups
  tried present-first, alternation left-to-right).
* The ambient Node filesystem is passed explicitly as a value of type FS:
  existsSync becomes membership in a list of existing paths, readdirSync a
  lookup in an association list whose absence models a thrown error, and
  mkdirSync a pure update returning a new FS.
* Node path helpers (dirname, basename, extname, join) are modelled for
  POSIX-style paths as used throughout the engine: forward-slash separated,
  no "." or ".." segments inside the path and no duplicate slashes, the
  second argument of join a plain entry name.  All inputs appearing in the
  specification and tests are of this shape.
* JS Array.prototype.sort with a consistent comparator is required by the
  language standard to produce the stable ascending order, so it is embedded
  as a structural stable insertion sort; String.prototype.localeCompare with
  sensitivity "base" is modelled for ASCII language codes as lexicographic
  comparison of the lowercased code-point sequences.
* The template literal rendering of the collision counter is modelled by a
  structural decimal renderer for Nat.
-/

namespace I18n

/-! ## ASCII character classes and case conversion -/

def isLowerAZ (c : Char) : Bool := 97 ≤ c.toNat && c.toNat ≤ 122

def isUpperAZ (c : Char) : Bool := 65 ≤ c.toNat && c.toNat ≤ 90

def isLetterAZ (c : Char) : Bool := isLowerAZ c || isUpperAZ c

def isDigit09 (c : Char) : Bool := 48 ≤ c.toNat && c.toNat ≤ 57

/-- JS toLowerCase, restricted to the ASCII range used by language codes. -/
def lowerChar (c : Char) : Char :=
  if isUpperAZ c then Char.ofNat (c.toNat + 32) else c

/-- JS toUpperCase, restricted to the ASCII range used by language codes. -/
def upperChar (c : Char) : Char :=
  if isLowerAZ c then Char.ofNat (c.toNat - 32) else c

def lowerStr (s : String) : String := ⟨s.data.map lowerChar⟩

def upperStr (s : String) : String := ⟨s.data.map upperChar⟩

/-! ## List-level string utilities -/

/-- JS String.prototype.split with a single-character separator: splits on
every occurrence, keeping empty fragments (so the result is never empty). -/
def splitOnChar (sep : Char) : List Char → List (List Char)
  | [] => [[]]
  | c :: t =>
    match splitOnChar sep t with
    | [] => [[]]
    | h :: r => if c = sep then [] :: h :: r else (c :: h) :: r

/-- JS Array.prototype.join with a single-character separator. -/
def joinWithChar (sep : Char) : List (List Char) → List Char
  | [] => []
  | [a] => a
  | a :: b :: r => a ++ sep :: joinWithChar sep (b :: r)

/-- First index at which the pattern occurs in the haystack, if any; the
-1 result of JS String.prototype.indexOf is modelled by none. -/
def firstIndexOf : List Char → List Char → Option Nat
  | hay, need =>
    if need.isPrefixOf hay then some 0
    else
      match hay with
      | [] => none
      | _ :: t => (firstIndexOf t need).map (· + 1)

/-! ## Node path helpers (POSIX flavour) -/

/-- Index (0-based) of the last occurrence of a character, if any. -/
def lastIndexOfChar (sep : Char) : List Char → Option Nat
  | [] => none
  | c :: t =>
    match lastIndexOfChar sep t with
    | some i => some (i + 1)
    | none => if c = sep then some 0 else none

/-- Node path.basename (one-argument form): the part after the last slash. -/
def pathBasename (p : String) : String :=
  match lastIndexOfChar '/' p.data with
  | none => p
  | some i => ⟨p.data.drop (i + 1)⟩

/-- Node path.dirname: everything before the last slash; "." when there is
no slash, "/" when the last slash is the leading one. -/
def pathDirname (p : String) : String :=
  match lastIndexOfChar '/' p.data with
  | none => "."
  | some 0 => "/"
  | some i => ⟨p.data.take i⟩

/-- Node path.extname: from the last dot of the basename to the end; empty
when the basename has no dot or starts with its only dot. -/
def pathExtname (p : String) : String :=
  let b := (pathBasename p).data
  match lastIndexOfChar '.' b with
  | none => ""
  | some 0 => ""
  | some i => ⟨b.drop i⟩

/-- Node path.basename (two-argument form): the basename with the suffix
removed when it is a proper suffix of the basename. -/
def pathBasenameExt (p ext : String) : String :=
  let b := pathBasename p
  if ext ≠ "" && b ≠ ext && ext.data.isSuffixOf b.data then
    ⟨b.data.take (b.data.length - ext.data.length)⟩
  else b

/-- Node path.join for the shapes used by the engine: a directory (possibly
"." from dirname, possibly slash-terminated) joined with a plain name. -/
def pathJoin (a b : String) : String :=
  if a = "" then b
  else if b = "" then a
  else if a = "." then b
  else if a.data.getLast? = some '/' then a ++ b
  else a ++ "/" ++ b

/-! ## The two anchored language-code regular expressions

The source declares

  languageCodeRegex =
    (anchored) [a-z]{2,3} ([-|_][A-Z][a-z]{3})? ([-|_]([A-Z]{2,3}|[0-9]{3}))?
    with the case-insensitive flag, and

  arbLanguageCodeRegex =
    (anchored) [a-z]{2,3} (_[A-Z][a-z]{3})? (_([A-Z]{2,3}|[0-9]{3}))?
    case-sensitive,

with named groups language, script, region.  The character class between
language and script/region subtags contains the three characters hyphen,
pipe and underscore for the standard regex and only underscore for the ARB
one.  The matcher below enumerates alternatives in exactly the JS engine's
backtracking order: counted repetition greedily (3 before 2), optional
groups present before absent, alternation left-to-right; the first overall
success determines the captured groups. -/

structure LangGroups where
  language : String
  script : Option String
  region : Option String
deriving DecidableEq, Repr

def stdSeps : List Char := ['-', '|', '_']

def arbSeps : List Char := ['_']

/-- The class [a-z], under the optional case-insensitive flag. -/
def langChar (ci : Bool) (c : Char) : Bool :=
  if ci then isLetterAZ c else isLowerAZ c

/-- The class [A-Z] (script head, region letters), under the optional flag. -/
def capChar (ci : Bool) (c : Char) : Bool :=
  if ci then isLetterAZ c else isUpperAZ c

/-- Take exactly n characters all satisfying p, returning them and the rest. -/
def splitExact : Nat → (Char → Bool) → List Char → Option (List Char × List Char)
  | 0, _, cs => some ([], cs)
  | _ + 1, _, [] => none
  | n + 1, p, c :: cs =>
    if p c then (splitExact n p cs).map (fun x => (c :: x.1, x.2)) else none

/-- The optional region group followed by the end anchor: on success returns
the captured region group (none when the group did not participate). -/
def matchRegionEnd (ci : Bool) (seps : List Char) : List Char → Option (Option String)
  | [] => some none
  | sep :: rest =>
    if seps.contains sep then
      match splitExact 3 (capChar ci) rest with
      | some (r, []) => some (some ⟨r⟩)
      | _ =>
        match splitExact 2 (capChar ci) rest with
        | some (r, []) => some (some ⟨r⟩)
        | _ =>
          match splitExact 3 isDigit09 rest with
          | some (r, []) => some (some ⟨r⟩)
          | _ => none
    else none

/-- The script group with its separator, followed by the region group and
the end anchor; none when this greedy attempt fails as a whole. -/
def matchScriptAttempt (ci : Bool) (seps : List Char) (cs : List Char) :
    Option (Option String × Option String) :=
  match cs with
  | [] => none
  | sep :: rest =>
    if seps.contains sep then
      match splitExact 1 (capChar ci) rest with
      | none => none
      | some (h, rest1) =>
        match splitExact 3 (langChar ci) rest1 with
        | none => none
        | some (t, rest2) =>
          match matchRegionEnd ci seps rest2 with
          | some r => some (some ⟨h ++ t⟩, r)
          | none => none
    else none

/-- The optional script group, then the region group and the end anchor: the
script-present attempt is tried first, backtracking to script-absent. -/
def matchScriptRegionEnd (ci : Bool) (seps : List Char) (cs : List Char) :
    Option (Option String × Option String) :=
  match matchScriptAttempt ci seps cs with
  | some x => some x
  | none =>
    match matchRegionEnd ci seps cs with
    | some r => some (none, r)
    | none => none

/-- Full anchored match of either regex, returning the captured groups. -/
def matchLangCode (ci : Bool) (seps : List Char) (cs : List Char) : Option LangGroups :=
  match splitExact 3 (langChar ci) cs with
  | some (l, rest) =>
    match matchScriptRegionEnd ci seps rest with
    | some (s, r) => some ⟨⟨l⟩, s, r⟩
    | none =>
      match splitExact 2 (langChar ci) cs with
      | some (l2, rest2) =>
        match matchScriptRegionEnd ci seps rest2 with
        | some (s, r) => some ⟨⟨l2⟩, s, r⟩
        | none => none
      | none => none
  | none =>
    match splitExact 2 (langChar ci) cs with
    | some (l2, rest2) =>
      match matchScriptRegionEnd ci seps rest2 with
      | some (s, r) => some ⟨⟨l2⟩, s, r⟩
      | none => none
    | none => none

/-- languageCodeRegex.test, anchored whole-string match. -/
def languageCodeRegexTest (s : String) : Bool :=
  (matchLangCode true stdSeps s.data).isSome

/-- arbLanguageCodeRegex.test, anchored whole-string match. -/
def arbLanguageCodeRegexTest (s : String) : Bool :=
  (matchLangCode false arbSeps s.data).isSome

/-! ## Filesystem model

The engine runs against the ambient Node filesystem.  It is embedded as an
explicit value: existsSync is membership in the list of existing paths,
readdirSync is a lookup in an association list of directory listings whose
missing key models the call throwing, and mkdirSync with the recursive
option is a pure update producing a new filesystem value. -/

structure DirEntry where
  name : String
  isDir : Bool
deriving DecidableEq, Repr

structure FS where
  paths : List String
  listings : List (String × List DirEntry)
deriving DecidableEq, Repr

def existsSync (fs : FS) (p : String) : Bool := fs.paths.contains p

/-- readdirSync with the withFileTypes option; none models a thrown error
(permission denied, directory missing or concurrently deleted). -/
def readdirSync (fs : FS) (d : String) : Option (List DirEntry) :=
  fs.listings.lookup d

/-- The slash-joined ancestors of a directory path, shortest first,
omitting the empty fragment of a leading slash. -/
def ancestorPaths (dir : String) : List String :=
  let segs := splitOnChar '/' dir.data
  ((List.range segs.length).map
    (fun i => (⟨joinWithChar '/' (segs.take (i + 1))⟩ : String))).filter (· ≠ "")

/-- mkdirSync with the recursive option: creates the directory and any
missing ancestors; creating an already-existing directory is not an error. -/
def mkdirSyncRecursive (fs : FS) (dir : String) : FS :=
  { fs with paths := fs.paths ++ (ancestorPaths dir).filter (fun a => !fs.paths.contains a) }

/-! ## Decimal rendering, JS Set insertion order, JS stable sort -/

/-- The ten decimal digit characters. -/
def digitChar (d : Nat) : Char :=
  match d with
  | 0 => '0' | 1 => '1' | 2 => '2' | 3 => '3' | 4 => '4'
  | 5 => '5' | 6 => '6' | 7 => '7' | 8 => '8' | 9 => '9'
  | _ => '*'

/-- Digits of n in order, by repeated division; the fuel only bounds the
recursion and is in excess whenever n is at most the fuel. -/
def toDecimalAux : Nat → Nat → List Char
  | 0, _ => []
  | fuel + 1, n => if n = 0 then [] else toDecimalAux fuel (n / 10) ++ [digitChar (n % 10)]

/-- Decimal rendering of a natural number, as a JS template literal does. -/
def decimalRepr (n : Nat) : String :=
  if n = 0 then "0" else ⟨toDecimalAux n n⟩

/-- JS Set insertion: appends when absent, keeping first-insertion order. -/
def insertNew (l : List String) (x : String) : List String :=
  if l.contains x then l else l ++ [x]

/-- Model of a.localeCompare(b, undefined, sensitivity base) being negative,
for ASCII language codes: lexicographic comparison of the lowercased
code-point sequences (case differences are ignored at strength base). -/
def lexLtChars : List Char → List Char → Bool
  | [], [] => false
  | [], _ :: _ => true
  | _ :: _, [] => false
  | a :: as, b :: bs =>
    if a.toNat < b.toNat then true
    else if b.toNat < a.toNat then false
    else lexLtChars as bs

def localeLtBase (a b : String) : Bool :=
  lexLtChars (a.data.map lowerChar) (b.data.map lowerChar)

/-- Stable insertion into an ascending list: placed before the first
strictly greater element, hence after earlier equal elements. -/
def insertSorted (x : String) : List String → List String
  | [] => [x]
  | y :: t => if localeLtBase x y then x :: y :: t else y :: insertSorted x t

/-- JS Array.prototype.sort with the localeCompare comparator: for a
consistent comparator the standard mandates the stable ascending order,
realised here as a structural stable insertion sort. -/
def sortJS (l : List String) : List String :=
  l.foldl (fun acc x => insertSorted x acc) []

/-! ## The I18nProjectManager engine -/

inductive ProjectStructureType
  | FolderBased
  | FileBased
  | Unknown
deriving DecidableEq, Repr

structure ProjectStructureInfo where
  type : ProjectStructureType
  basePath : String
  sourceLanguage : Option String
deriving DecidableEq, Repr

/-- The suffix loop of extractLanguageCodeFromFileName: over the segments
obtained by splitting on underscore, rejoin every right-aligned suffix and
return the first (longest) one accepted by the ARB regex. -/
def firstMatchingSuffix : List (List Char) → Option String
  | [] => none
  | h :: t =>
    let cand : String := ⟨joinWithChar '_' (h :: t)⟩
    if arbLanguageCodeRegexTest cand then some cand else firstMatchingSuffix t

/-- extractLanguageCodeFromFileName: ARB names may carry a prefixed
application name joined by underscores; non-ARB names must be a code
in their entirety. -/
def extractLanguageCodeFromFileName (fileName : String) (isArbFile : Bool) :
    Option String :=
  if isArbFile then firstMatchingSuffix (splitOnChar '_' fileName.data)
  else if languageCodeRegexTest fileName then some fileName else none

/-- detectProjectStructure.  The FS parameter stands for the ambient
filesystem every method runs against; this method performs no filesystem
access, so the parameter is unused. -/
def detectProjectStructure (_fs : FS) (sourceFilePath : String) :
    ProjectStructureInfo :=
  let sourceDir := pathDirname sourceFilePath
  let sourceFileExt := pathExtname sourceFilePath
  let sourceFileName := pathBasenameExt sourceFilePath sourceFileExt
  let isArbFile := sourceFileExt == ".arb"
  let parentDirName := pathBasename sourceDir
  let parentMatches :=
    if isArbFile then arbLanguageCodeRegexTest parentDirName
    else languageCodeRegexTest parentDirName
  if parentMatches then
    ⟨.FolderBased, pathDirname sourceDir, some parentDirName⟩
  else
    match extractLanguageCodeFromFileName sourceFileName isArbFile with
    | some code => ⟨.FileBased, sourceDir, some code⟩
    | none => ⟨.Unknown, sourceDir, none⟩

/-- The Set.delete step guarded by the truthiness of sourceLanguage: when a
non-empty source language was detected it is removed from the set. -/
def applyDelete (slOpt : Option String) (asSet : List String) : List String :=
  match slOpt with
  | some sl => if sl = "" then asSet else asSet.filter (fun x => x ≠ sl)
  | none => asSet

/-- detectLanguagesFromProject: scan the base path for language directories
or language files, collect codes into a Set, drop the source language, and
return the locale-aware case-insensitively sorted list. -/
def detectLanguagesFromProject (fs : FS) (sourceFilePath : String) : List String :=
  let isArbFile := ".arb".data.isSuffixOf sourceFilePath.data
  let structureInfo := detectProjectStructure fs sourceFilePath
  let sourceLanguage := structureInfo.sourceLanguage
  let scanned : List String :=
    match structureInfo.type with
    | .FolderBased =>
      match readdirSync fs structureInfo.basePath with
      | none => []
      | some entries =>
        (entries.filter (fun e =>
          e.isDir && (if isArbFile then arbLanguageCodeRegexTest e.name
                      else languageCodeRegexTest e.name))).map DirEntry.name
    | .FileBased =>
      let fileExtension := if isArbFile then ".arb" else ".json"
      match readdirSync fs structureInfo.basePath with
      | none => []
      | some entries =>
        entries.filterMap (fun e =>
          if !e.isDir && fileExtension.data.isSuffixOf e.name.data then
            extractLanguageCodeFromFileName (pathBasenameExt e.name fileExtension) isArbFile
          else none)
    | .Unknown => []
  let asSet := scanned.foldl insertNew []
  sortJS (applyDelete sourceLanguage asSet)

/-- JS targetLanguage.replace, globally substituting underscore for hyphen. -/
def replaceHyphens (s : String) : String :=
  ⟨s.data.map (fun c => if c = '-' then '_' else c)⟩

/-- generateTargetFilePath.  Returns the target path together with the
filesystem after the FolderBased branch's directory-creation side effect. -/
def generateTargetFilePath (fs : FS) (sourceFilePath targetLanguage : String) :
    String × FS :=
  let structureInfo := detectProjectStructure fs sourceFilePath
  let fileExtension := pathExtname sourceFilePath
  let sourceFileName := pathBasenameExt sourceFilePath fileExtension
  let isArbFile := fileExtension == ".arb"
  let languageCode := if isArbFile then replaceHyphens targetLanguage else targetLanguage
  match structureInfo.type with
  | .FolderBased =>
    let targetDir := pathJoin structureInfo.basePath languageCode
    let fs1 := if existsSync fs targetDir then fs else mkdirSyncRecursive fs targetDir
    (pathJoin targetDir (sourceFileName ++ fileExtension), fs1)
  | .FileBased =>
    if isArbFile then
      let pref : String :=
        match structureInfo.sourceLanguage with
        | some sourceLanguage =>
          match firstIndexOf sourceFileName.data sourceLanguage.data with
          | some langIndex =>
            if 0 < langIndex then ⟨sourceFileName.data.take langIndex⟩ else ""
          | none => ""
        | none => ""
      (pathJoin structureInfo.basePath (pref ++ languageCode ++ fileExtension), fs)
    else
      (pathJoin structureInfo.basePath (languageCode ++ fileExtension), fs)
  | .Unknown =>
    let sourceDir := pathDirname sourceFilePath
    (pathJoin sourceDir (sourceFileName ++ "." ++ languageCode ++ fileExtension), fs)

/-- One candidate of the collision loop: base name, a space, the counter in
parentheses, the extension, joined back onto the directory. -/
def uniqueCandidate (dir baseName ext : String) (n : Nat) : String :=
  pathJoin dir (baseName ++ " (" ++ decimalRepr n ++ ")" ++ ext)

/-- The do-while loop of getUniqueFilePath: the first candidate, at counter
n and ascending, that does not exist.  The fuel argument only bounds the
recursion; getUniqueFilePath passes one more than the number of existing
paths, which the pigeonhole argument below shows is never exhausted. -/
def findUniqueAux (fs : FS) (dir baseName ext : String) : Nat → Nat → String
  | 0, n => uniqueCandidate dir baseName ext n
  | fuel + 1, n =>
    let c := uniqueCandidate dir baseName ext n
    if existsSync fs c then findUniqueAux fs dir baseName ext fuel (n + 1) else c

/-- getUniqueFilePath: a path that does not exist is returned unchanged;
otherwise counter suffixes are tried from 1 upward. -/
def getUniqueFilePath (fs : FS) (filePath : String) : String :=
  if !existsSync fs filePath then filePath
  else
    let dir := pathDirname filePath
    let ext := pathExtname filePath
    let baseName := pathBasenameExt filePath ext
    findUniqueAux fs dir baseName ext (fs.paths.length + 1) 1

/-- normalizeLanguageCode: rebuild the canonical hyphen-joined form from the
captured groups of the standard regex; inputs that do not match are
returned unchanged. -/
def normalizeLanguageCode (code : String) : String :=
  match matchLangCode true stdSeps code.data with
  | none => code
  | some g =>
    let n0 := lowerStr g.language
    let n1 :=
      match g.script with
      | some script =>
        n0 ++ "-" ++ (match script.data with
          | [] => ""
          | c :: t => (⟨upperChar c :: t.map lowerChar⟩ : String))
      | none => n0
    match g.region with
    | some region => n1 ++ "-" ++ upperStr region
    | none => n1

/-- validateLanguageCode: truthiness of the code conjoined with the
standard (case-insensitive) regex test; the ARB regex is not consulted. -/
def validateLanguageCode (code : String) : Bool :=
  code != "" && languageCodeRegexTest code

/-! ## Supporting lemmas about the character-list utilities -/

theorem splitExact_eq {n : Nat} {p : Char → Bool} {cs a b : List Char}
    (h : splitExact n p cs = some (a, b)) :
    cs = a ++ b ∧ a.length = n ∧ ∀ c ∈ a, p c = true := by
  induction n generalizing cs a b with
  | zero =>
    simp only [splitExact, Option.some.injEq, Prod.mk.injEq] at h
    obtain ⟨rfl, rfl⟩ := h
    simp
  | succ n ih =>
    cases cs with
    | nil => simp [splitExact] at h
    | cons c t =>
      simp only [splitExact] at h
      by_cases hc : p c
      · rw [if_pos hc, Option.map_eq_some'] at h
        obtain ⟨⟨a', b'⟩, hrec, heq⟩ := h
        obtain ⟨rfl, rfl⟩ := Prod.mk.injEq .. ▸ heq
        obtain ⟨rfl, hlen, hall⟩ := ih hrec
        refine ⟨rfl, by simp [hlen], ?_⟩
        intro x hx
        rcases List.mem_cons.mp hx with rfl | hx
        · exact hc
        · exact hall x hx
      · rw [if_neg hc] at h
        exact absurd h (by simp)

theorem splitExact_of {p : Char → Bool} {a : List Char} (b : List Char)
    (h2 : ∀ c ∈ a, p c = true) :
    splitExact a.length p (a ++ b) = some (a, b) := by
  induction a with
  | nil => simp [splitExact]
  | cons c t ih =>
    show splitExact (t.length + 1) p (c :: (t ++ b)) = some (c :: t, b)
    simp only [splitExact]
    rw [if_pos (h2 c (List.mem_cons_self c t)),
      ih (fun x hx => h2 x (List.mem_cons_of_mem c hx))]
    rfl

theorem splitOnChar_ne_nil (sep : Char) (l : List Char) : splitOnChar sep l ≠ [] := by
  cases l with
  | nil => simp [splitOnChar]
  | cons c t =>
    simp only [splitOnChar]
    rcases h : splitOnChar sep t with _ | ⟨h1, r⟩
    · simp
    · by_cases hc : c = sep <;> simp [hc]

theorem joinWithChar_splitOnChar (sep : Char) (l : List Char) :
    joinWithChar sep (splitOnChar sep l) = l := by
  induction l with
  | nil => rfl
  | cons c t ih =>
    rcases h : splitOnChar sep t with _ | ⟨h1, r⟩
    · exact absurd h (splitOnChar_ne_nil sep t)
    · rw [h] at ih
      by_cases hc : c = sep
      · subst hc
        simp only [splitOnChar, h, if_true]
        simp only [joinWithChar, List.nil_append]
        rw [ih]
      · simp only [splitOnChar, h]
        rw [if_neg hc]
        cases r with
        | nil =>
          simp only [joinWithChar] at ih ⊢
          rw [ih]
        | cons r1 rr =>
          simp only [joinWithChar] at ih ⊢
          rw [List.cons_append, ih]

theorem lastIndexOfChar_lt_length {sep : Char} {l : List Char} {i : Nat}
    (h : lastIndexOfChar sep l = some i) : i < l.length := by
  induction l generalizing i with
  | nil => simp [lastIndexOfChar] at h
  | cons c t ih =>
    simp only [lastIndexOfChar] at h
    rcases hrec : lastIndexOfChar sep t with _ | j
    · rw [hrec] at h
      by_cases hc : c = sep
      · simp [hc] at h
        simp [← h]
      · simp [hc] at h
    · rw [hrec] at h
      obtain rfl : j + 1 = i := by simpa using h
      have := ih hrec
      simp only [List.length_cons]
      omega

/-- pathDirname is never the empty string. -/
theorem pathDirname_ne_empty (p : String) : pathDirname p ≠ "" := by
  unfold pathDirname
  rcases h : lastIndexOfChar '/' p.data with _ | i
  · simp
  · cases i with
    | zero => simp
    | succ j =>
      have hlt := lastIndexOfChar_lt_length h
      intro hcontra
      have hdata : p.data.take (j + 1) = [] := by
        simpa using congrArg String.data hcontra
      have hlen : min (j + 1) p.data.length = 0 := by
        simpa [List.length_take] using congrArg List.length hdata
      omega

/-! ## Decimal rendering is injective -/

def charVal (c : Char) : Nat := c.toNat - 48

def valDec (l : List Char) : Nat := l.foldl (fun a c => 10 * a + charVal c) 0

theorem valDec_append (l : List Char) (c : Char) :
    valDec (l ++ [c]) = 10 * valDec l + charVal c := by
  simp [valDec, List.foldl_append]

theorem charVal_digitChar {d : Nat} (h : d < 10) : charVal (digitChar d) = d := by
  interval_cases d <;> rfl

theorem valDec_toDecimalAux : ∀ fuel n, n ≤ fuel → valDec (toDecimalAux fuel n) = n := by
  intro fuel
  induction fuel with
  | zero =>
    intro n hn
    obtain rfl : n = 0 := Nat.le_zero.mp hn
    rfl
  | succ fuel ih =>
    intro n hn
    by_cases h0 : n = 0
    · subst h0; rfl
    · have hrec : n / 10 ≤ fuel := by
        have : n / 10 < n := Nat.div_lt_self (Nat.pos_of_ne_zero h0) (by omega)
        omega
      simp only [toDecimalAux, if_neg h0]
      rw [valDec_append, ih _ hrec, charVal_digitChar (Nat.mod_lt n (by omega))]
      exact Nat.div_add_mod n 10

theorem decimalRepr_inj {m n : Nat} (h : (decimalRepr m).data = (decimalRepr n).data) :
    m = n := by
  have hdata := h
  by_cases hm : m = 0 <;> by_cases hn : n = 0
  · omega
  · exfalso
    subst hm
    simp only [decimalRepr, if_pos, if_neg hn] at hdata
    have := congrArg valDec hdata
    rw [valDec_toDecimalAux n n (le_refl n)] at this
    simp [valDec, charVal] at this
    omega
  · exfalso
    subst hn
    simp only [decimalRepr, if_pos, if_neg hm] at hdata
    have := congrArg valDec hdata
    rw [valDec_toDecimalAux m m (le_refl m)] at this
    simp [valDec, charVal] at this
    omega
  · simp only [decimalRepr, if_neg hm, if_neg hn] at hdata
    have := congrArg valDec hdata
    rwa [valDec_toDecimalAux m m (le_refl m), valDec_toDecimalAux n n (le_refl n)] at this

/-! ## The locale comparator and the stable sort -/

/-- The ascending order realised by the sort: a before b when the
comparator does not place b strictly before a. -/
def leBase (a b : String) : Prop := localeLtBase b a = false

theorem lexLtChars_irrefl (l : List Char) : lexLtChars l l = false := by
  induction l with
  | nil => rfl
  | cons c t ih => simp [lexLtChars, ih]

theorem lexLtChars_trans {a b c : List Char} (h1 : lexLtChars a b = true)
    (h2 : lexLtChars b c = true) : lexLtChars a c = true := by
  induction a generalizing b c with
  | nil =>
    cases b with
    | nil => simp [lexLtChars] at h1
    | cons b1 bt =>
      cases c with
      | nil => simp [lexLtChars] at h2
      | cons c1 ct => simp [lexLtChars]
  | cons a1 t ih =>
    cases b with
    | nil => simp [lexLtChars] at h1
    | cons b1 bt =>
      cases c with
      | nil => simp [lexLtChars] at h2
      | cons c1 ct =>
        have H1 : a1.toNat < b1.toNat ∨ (a1.toNat = b1.toNat ∧ lexLtChars t bt = true) := by
          by_cases hab : a1.toNat < b1.toNat
          · exact Or.inl hab
          · by_cases hba : b1.toNat < a1.toNat
            · simp [lexLtChars, hab, hba] at h1
            · exact Or.inr ⟨by omega, by simpa [lexLtChars, hab, hba] using h1⟩
        have H2 : b1.toNat < c1.toNat ∨ (b1.toNat = c1.toNat ∧ lexLtChars bt ct = true) := by
          by_cases hbc : b1.toNat < c1.toNat
          · exact Or.inl hbc
          · by_cases hcb : c1.toNat < b1.toNat
            · simp [lexLtChars, hbc, hcb] at h2
            · exact Or.inr ⟨by omega, by simpa [lexLtChars, hbc, hcb] using h2⟩
        rcases H1 with hab | ⟨hab, hab2⟩ <;> rcases H2 with hbc | ⟨hbc, hbc2⟩
        · simp [lexLtChars, show a1.toNat < c1.toNat by omega]
        · simp [lexLtChars, show a1.toNat < c1.toNat by omega]
        · simp [lexLtChars, show a1.toNat < c1.toNat by omega]
        · simp only [lexLtChars, if_neg (show ¬a1.toNat < c1.toNat by omega),
            if_neg (show ¬c1.toNat < a1.toNat by omega)]
          exact ih hab2 hbc2

theorem lexLtChars_keys_eq {a b : List Char} (h1 : lexLtChars a b = false)
    (h2 : lexLtChars b a = false) : a = b := by
  induction a generalizing b with
  | nil =>
    cases b with
    | nil => rfl
    | cons b1 bt => simp [lexLtChars] at h1
  | cons a1 t ih =>
    cases b with
    | nil => simp [lexLtChars] at h2
    | cons b1 bt =>
      by_cases hab : a1.toNat < b1.toNat
      · simp [lexLtChars, hab] at h1
      · by_cases hba : b1.toNat < a1.toNat
        · simp [lexLtChars, hba] at h2
        · have heq : a1 = b1 := by
            have h3 : a1.toNat = b1.toNat := by omega
            simpa using congrArg Char.ofNat h3
          subst heq
          simp only [lexLtChars, if_neg hab, if_neg hba] at h1 h2
          rw [ih h1 h2]

theorem leBase_total (a b : String) : leBase a b ∨ leBase b a := by
  unfold leBase localeLtBase
  by_cases h1 : lexLtChars (b.data.map lowerChar) (a.data.map lowerChar) = true
  · by_cases h2 : lexLtChars (a.data.map lowerChar) (b.data.map lowerChar) = true
    · have := lexLtChars_trans h1 h2
      rw [lexLtChars_irrefl] at this
      exact absurd this (by simp)
    · exact Or.inr (by simpa using h2)
  · exact Or.inl (by simpa using h1)

theorem leBase_trans {a b c : String} (h1 : leBase a b) (h2 : leBase b c) : leBase a c := by
  unfold leBase localeLtBase at h1 h2 ⊢
  by_cases hca : lexLtChars (c.data.map lowerChar) (a.data.map lowerChar) = true
  · by_cases hbc : lexLtChars (b.data.map lowerChar) (c.data.map lowerChar) = true
    · have := lexLtChars_trans hbc hca
      rw [this] at h1
      exact absurd h1 (by simp)
    · have hkey := lexLtChars_keys_eq h2 (by simpa using hbc)
      rw [hkey] at hca
      rw [hca] at h1
      exact absurd h1 (by simp)
  · simpa using hca

theorem insertSorted_perm (x : String) (l : List String) :
    List.Perm (insertSorted x l) (x :: l) := by
  induction l with
  | nil => exact List.Perm.refl _
  | cons y t ih =>
    simp only [insertSorted]
    by_cases h : localeLtBase x y = true
    · rw [if_pos h]
    · rw [if_neg h]
      exact (ih.cons y).trans (List.Perm.swap x y t)

theorem localeLtBase_asymm {a b : String} (h : localeLtBase a b = true) :
    localeLtBase b a = false := by
  unfold localeLtBase at h ⊢
  by_cases h2 : lexLtChars (b.data.map lowerChar) (a.data.map lowerChar) = true
  · have := lexLtChars_trans h h2
    rw [lexLtChars_irrefl] at this
    exact absurd this (by simp)
  · simpa using h2

theorem insertSorted_pairwise {x : String} {l : List String}
    (hl : l.Pairwise leBase) : (insertSorted x l).Pairwise leBase := by
  induction l with
  | nil => simp [insertSorted]
  | cons y t ih =>
    rw [List.pairwise_cons] at hl
    obtain ⟨hy, ht⟩ := hl
    simp only [insertSorted]
    by_cases h : localeLtBase x y = true
    · rw [if_pos h]
      have hxy : leBase x y := localeLtBase_asymm h
      refine List.Pairwise.cons ?_ (List.Pairwise.cons hy ht)
      intro z hz
      rcases List.mem_cons.mp hz with rfl | hz
      · exact hxy
      · exact leBase_trans hxy (hy z hz)
    · rw [if_neg h]
      refine List.Pairwise.cons ?_ (ih ht)
      intro z hz
      rcases List.mem_cons.mp ((insertSorted_perm x t).mem_iff.mp hz) with rfl | hz
      · exact (by simpa [leBase] using h)
      · exact hy z hz

theorem sortJS_perm (l : List String) : List.Perm (sortJS l) l := by
  suffices h : ∀ acc, List.Perm (List.foldl (fun acc x => insertSorted x acc) acc l) (acc ++ l) by
    simpa using h []
  induction l with
  | nil => intro acc; simp
  | cons x t ih =>
    intro acc
    have step : List.Perm (insertSorted x acc ++ t) (acc ++ x :: t) := by
      refine ((insertSorted_perm x acc).append_right t).trans ?_
      exact List.perm_middle.symm
    exact (ih (insertSorted x acc)).trans step

theorem sortJS_pairwise (l : List String) : (sortJS l).Pairwise leBase := by
  suffices h : ∀ acc, acc.Pairwise leBase →
      (List.foldl (fun acc x => insertSorted x acc) acc l).Pairwise leBase by
    exact h [] (List.Pairwise.nil)
  induction l with
  | nil => intro acc hacc; simpa using hacc
  | cons x t ih => intro acc hacc; exact ih _ (insertSorted_pairwise hacc)

theorem mem_foldl_insertNew (l : List String) :
    ∀ (acc : List String) (x : String),
      x ∈ List.foldl insertNew acc l ↔ x ∈ acc ∨ x ∈ l := by
  induction l with
  | nil => intro acc x; simp
  | cons y t ih =>
    intro acc x
    rw [List.foldl_cons, ih]
    unfold insertNew
    by_cases hy : acc.contains y
    · rw [if_pos hy]
      constructor
      · rintro (h | h)
        · exact Or.inl h
        · exact Or.inr (List.mem_cons_of_mem y h)
      · rintro (h | h)
        · exact Or.inl h
        · rcases List.mem_cons.mp h with rfl | h
          · exact Or.inl (by simpa using hy)
          · exact Or.inr h
    · rw [if_neg hy]
      simp only [List.mem_append, List.mem_singleton, List.mem_cons]
      tauto

theorem nodup_foldl_insertNew (l : List String) :
    ∀ (acc : List String), acc.Nodup → (List.foldl insertNew acc l).Nodup := by
  induction l with
  | nil => intro acc h; simpa using h
  | cons y t ih =>
    intro acc hacc
    rw [List.foldl_cons]
    refine ih _ ?_
    unfold insertNew
    by_cases hy : acc.contains y
    · rwa [if_pos hy]
    · rw [if_neg hy]
      rw [List.nodup_append]
      refine ⟨hacc, List.nodup_singleton y, ?_⟩
      intro a ha hay
      rw [List.mem_singleton] at hay
      subst hay
      exact hy (by simpa using ha)

/-! ## mkdirSync and its ancestors -/

theorem existsSync_mkdirSyncRecursive (fs : FS) (dir a : String) :
    existsSync (mkdirSyncRecursive fs dir) a = true ↔
      existsSync fs a = true ∨ a ∈ ancestorPaths dir := by
  simp only [existsSync, mkdirSyncRecursive, List.contains, List.elem_eq_mem,
    decide_eq_true_eq, List.mem_append, List.mem_filter, Bool.not_eq_true',
    decide_eq_false_iff_not]
  tauto

theorem mem_ancestorPaths_self {dir : String} (h : dir ≠ "") :
    dir ∈ ancestorPaths dir := by
  unfold ancestorPaths
  rw [List.mem_filter]
  constructor
  · rw [List.mem_map]
    have hne := splitOnChar_ne_nil '/' dir.data
    have hlen : 0 < (splitOnChar '/' dir.data).length := List.length_pos.mpr hne
    refine ⟨(splitOnChar '/' dir.data).length - 1, ?_, ?_⟩
    · rw [List.mem_range]; omega
    · have htake : (splitOnChar '/' dir.data).take ((splitOnChar '/' dir.data).length - 1 + 1) =
          splitOnChar '/' dir.data := by
        rw [Nat.sub_add_cancel hlen]
        exact List.take_length _
      rw [htake, joinWithChar_splitOnChar]
  · simpa using h

/-! ## The collision-resolution loop terminates within its fuel -/

theorem append_cancel_mid {x y : List Char} (A B : List Char)
    (h : A ++ x ++ B = A ++ y ++ B) : x = y := by
  rw [List.append_assoc, List.append_assoc] at h
  exact List.append_cancel_right (List.append_cancel_left h)

theorem uniqueCandidate_name_ne_empty (base ext : String) (n : Nat) :
    (base ++ " (" ++ decimalRepr n ++ ")" ++ ext) ≠ "" := by
  intro hcontra
  have h2 := congrArg String.data hcontra
  simp only [String.data_append] at h2
  simp at h2

theorem uniqueCandidate_inj {dir base ext : String} {m n : Nat}
    (h : uniqueCandidate dir base ext m = uniqueCandidate dir base ext n) : m = n := by
  have hm := uniqueCandidate_name_ne_empty base ext m
  have hn := uniqueCandidate_name_ne_empty base ext n
  unfold uniqueCandidate pathJoin at h
  have hnames : (base ++ " (" ++ decimalRepr m ++ ")" ++ ext).data =
      (base ++ " (" ++ decimalRepr n ++ ")" ++ ext).data := by
    by_cases h1 : dir = ""
    · rw [if_pos h1, if_pos h1] at h
      exact congrArg String.data h
    · rw [if_neg h1, if_neg h1, if_neg hm, if_neg hn] at h
      by_cases h2 : dir = "."
      · rw [if_pos h2, if_pos h2] at h
        exact congrArg String.data h
      · rw [if_neg h2, if_neg h2] at h
        by_cases h3 : dir.data.getLast? = some '/'
        · rw [if_pos h3, if_pos h3] at h
          have h4 := congrArg String.data h
          simp only [String.data_append] at h4
          exact List.append_cancel_left h4
        · rw [if_neg h3, if_neg h3] at h
          have h4 := congrArg String.data h
          simp only [String.data_append, List.append_assoc] at h4
          simpa [String.data_append] using
            List.append_cancel_left (List.append_cancel_left h4)
  simp only [String.data_append, List.append_assoc] at hnames
  have hmid : (decimalRepr m).data = (decimalRepr n).data := by
    refine append_cancel_mid (base.data ++ " (".data) (")".data ++ ext.data) ?_
    simpa [List.append_assoc] using hnames
  exact decimalRepr_inj hmid

theorem exists_free_uniqueCandidate (fs : FS) (dir base ext : String) :
    ∃ k, 1 ≤ k ∧ k ≤ fs.paths.length + 1 ∧
      existsSync fs (uniqueCandidate dir base ext k) = false := by
  by_contra hc
  push_neg at hc
  have hall : ∀ k, 1 ≤ k → k ≤ fs.paths.length + 1 →
      uniqueCandidate dir base ext k ∈ fs.paths := by
    intro k h1 h2
    have h3 := hc k h1 h2
    simpa [existsSync, List.contains, List.elem_eq_mem, Bool.not_eq_false] using h3
  have hinj : Set.InjOn (fun i => uniqueCandidate dir base ext (i + 1))
      ↑(Finset.range (fs.paths.length + 1)) := by
    intro i _ j _ hij
    have := uniqueCandidate_inj hij
    omega
  have hsub : (Finset.range (fs.paths.length + 1)).image
      (fun i => uniqueCandidate dir base ext (i + 1)) ⊆ fs.paths.toFinset := by
    intro x hx
    simp only [Finset.mem_image, Finset.mem_range] at hx
    obtain ⟨i, hi, rfl⟩ := hx
    rw [List.mem_toFinset]
    exact hall (i + 1) (by omega) (by omega)
  have hcard := Finset.card_le_card hsub
  rw [Finset.card_image_of_injOn hinj, Finset.card_range] at hcard
  have := fs.paths.toFinset_card_le
  omega

theorem findUniqueAux_spec (fs : FS) (dir base ext : String) :
    ∀ fuel n,
      (∃ k, n ≤ k ∧ k ≤ n + fuel ∧
        existsSync fs (uniqueCandidate dir base ext k) = false) →
      ∃ m, n ≤ m ∧
        findUniqueAux fs dir base ext fuel n = uniqueCandidate dir base ext m ∧
        existsSync fs (uniqueCandidate dir base ext m) = false ∧
        ∀ j, n ≤ j → j < m → existsSync fs (uniqueCandidate dir base ext j) = true := by
  intro fuel
  induction fuel with
  | zero =>
    rintro n ⟨k, h1, h2, h3⟩
    obtain rfl : k = n := by omega
    exact ⟨k, le_refl k, rfl, h3, fun j hj1 hj2 => absurd (lt_of_le_of_lt hj1 hj2) (lt_irrefl k)⟩
  | succ fuel ih =>
    rintro n ⟨k, h1, h2, h3⟩
    by_cases hex : existsSync fs (uniqueCandidate dir base ext n) = true
    · have hkn : k ≠ n := by
        intro hkn
        rw [hkn] at h3
        rw [h3] at hex
        simp at hex
      obtain ⟨m, hm1, hm2, hm3, hm4⟩ := ih (n + 1) ⟨k, by omega, by omega, h3⟩
      refine ⟨m, by omega, ?_, hm3, ?_⟩
      · simp only [findUniqueAux]
        rw [if_pos hex]
        exact hm2
      · intro j hj1 hj2
        rcases Nat.eq_or_lt_of_le hj1 with rfl | hj
        · exact hex
        · exact hm4 j hj hj2
    · have hexf : existsSync fs (uniqueCandidate dir base ext n) = false := by
        simpa using hex
      refine ⟨n, le_refl n, ?_, hexf, fun j hj1 hj2 => absurd (lt_of_le_of_lt hj1 hj2) (lt_irrefl n)⟩
      simp only [findUniqueAux]
      rw [if_neg hex]

/-! ## The ARB suffix scan -/

theorem firstMatchingSuffix_some {l : List (List Char)} {r : String}
    (h : firstMatchingSuffix l = some r) :
    ∃ i, i < l.length ∧ r = ⟨joinWithChar '_' (l.drop i)⟩ ∧
      arbLanguageCodeRegexTest r = true ∧
      ∀ j, j < i → arbLanguageCodeRegexTest ⟨joinWithChar '_' (l.drop j)⟩ = false := by
  induction l generalizing r with
  | nil => simp [firstMatchingSuffix] at h
  | cons hd t ih =>
    simp only [firstMatchingSuffix] at h
    by_cases ht : arbLanguageCodeRegexTest ⟨joinWithChar '_' (hd :: t)⟩ = true
    · rw [if_pos ht] at h
      obtain rfl : (⟨joinWithChar '_' (hd :: t)⟩ : String) = r := by simpa using h
      exact ⟨0, by simp, by simp, ht, fun j hj => absurd hj (Nat.not_lt_zero j)⟩
    · rw [if_neg ht] at h
      obtain ⟨i, hi1, hi2, hi3, hi4⟩ := ih h
      refine ⟨i + 1, by simpa using Nat.succ_lt_succ hi1, by simpa using hi2, hi3, ?_⟩
      intro j hj
      cases j with
      | zero => simpa using ht
      | succ j =>
        have := hi4 j (by omega)
        simpa using this

theorem firstMatchingSuffix_none {l : List (List Char)} :
    firstMatchingSuffix l = none ↔
      ∀ i, i < l.length → arbLanguageCodeRegexTest ⟨joinWithChar '_' (l.drop i)⟩ = false := by
  induction l with
  | nil => simp [firstMatchingSuffix]
  | cons hd t ih =>
    simp only [firstMatchingSuffix]
    by_cases ht : arbLanguageCodeRegexTest ⟨joinWithChar '_' (hd :: t)⟩ = true
    · rw [if_pos ht]
      constructor
      · intro hcontra; exact absurd hcontra (by simp)
      · intro hall
        have := hall 0 (by simp)
        rw [List.drop_zero] at this
        rw [ht] at this
        exact absurd this (by simp)
    · rw [if_neg ht, ih]
      constructor
      · intro hall i hi
        cases i with
        | zero => simpa using ht
        | succ i => simpa using hall i (by simpa using Nat.lt_of_succ_lt_succ hi)
      · intro hall i hi
        have := hall (i + 1) (by simpa using Nat.succ_lt_succ hi)
        simpa using this

theorem joinWithChar_tail_length_le (sep : Char) (hd : List Char) (t : List (List Char)) :
    (joinWithChar sep t).length ≤ (joinWithChar sep (hd :: t)).length := by
  cases t with
  | nil => simp [joinWithChar]
  | cons b r =>
    simp only [joinWithChar, List.length_append, List.length_cons]
    omega

theorem joinWithChar_drop_length_anti (sep : Char) (l : List (List Char)) :
    ∀ i j, i ≤ j →
      (joinWithChar sep (l.drop j)).length ≤ (joinWithChar sep (l.drop i)).length := by
  have step : ∀ k, (joinWithChar sep (l.drop (k + 1))).length ≤
      (joinWithChar sep (l.drop k)).length := by
    intro k
    rw [← List.drop_drop 1 k l]
    cases h : l.drop k with
    | nil => simp
    | cons hd t => simpa using joinWithChar_tail_length_le sep hd t
  intro i j hij
  induction j with
  | zero =>
    obtain rfl : i = 0 := by omega
    exact le_refl _
  | succ j ihj =>
    rcases Nat.eq_or_lt_of_le hij with rfl | hlt
    · exact le_refl _
    · exact le_trans (step j) (ihj (by omega))

/-! ## Declarative reading of the two grammars

GrammarMatch states whole-string membership in the regex language the way
the specification describes it: a mandatory language subtag of 2-3 letters,
an optional separator-prefixed 4-letter script subtag written capital-first,
an optional separator-prefixed region subtag of 2-3 capitals or 3 digits;
under the case-insensitive flag every letter class admits both cases. -/

def LangShape (ci : Bool) (l : List Char) : Prop :=
  (l.length = 2 ∨ l.length = 3) ∧ ∀ c ∈ l, langChar ci c = true

def ScriptShape (ci : Bool) (s : List Char) : Prop :=
  ∃ c t, s = c :: t ∧ capChar ci c = true ∧ t.length = 3 ∧ ∀ d ∈ t, langChar ci d = true

def RegionShape (ci : Bool) (r : List Char) : Prop :=
  ((r.length = 2 ∨ r.length = 3) ∧ ∀ c ∈ r, capChar ci c = true) ∨
    (r.length = 3 ∧ ∀ c ∈ r, isDigit09 c = true)

def GrammarMatch (ci : Bool) (seps : List Char) (cs : List Char) : Prop :=
  ∃ l sPart rPart, cs = l ++ sPart ++ rPart ∧ LangShape ci l ∧
    (sPart = [] ∨ ∃ sep s, sep ∈ seps ∧ sPart = sep :: s ∧ ScriptShape ci s) ∧
    (rPart = [] ∨ ∃ sep r, sep ∈ seps ∧ rPart = sep :: r ∧ RegionShape ci r)

theorem splitExact_none_of_short {n : Nat} {p : Char → Bool} {cs : List Char}
    (h : cs.length < n) : splitExact n p cs = none := by
  induction n generalizing cs with
  | zero => omega
  | succ n ih =>
    cases cs with
    | nil => rfl
    | cons c t =>
      simp only [splitExact]
      by_cases hc : p c
      · rw [if_pos hc, ih (by simpa using Nat.lt_of_succ_lt_succ h)]
        rfl
      · rw [if_neg hc]

theorem splitExact_none_of_head {n : Nat} {p : Char → Bool} {c : Char} {cs : List Char}
    (h : p c = false) : splitExact (n + 1) p (c :: cs) = none := by
  simp [splitExact, h]

theorem capChar_of_digit {ci : Bool} {c : Char} (h : isDigit09 c = true) :
    capChar ci c = false := by
  have hd : 48 ≤ c.toNat ∧ c.toNat ≤ 57 := by
    simpa [isDigit09, Bool.and_eq_true, decide_eq_true_eq] using h
  cases ci <;> simp [capChar, isLetterAZ, isUpperAZ, isLowerAZ] <;> omega

theorem contains_of_mem {seps : List Char} {c : Char} (h : c ∈ seps) :
    seps.contains c = true := by
  simpa [List.contains, List.elem_eq_mem] using h

theorem mem_of_contains {seps : List Char} {c : Char} (h : seps.contains c = true) :
    c ∈ seps := by
  simpa [List.contains, List.elem_eq_mem] using h

theorem matchRegionEnd_sound {ci : Bool} {seps cs : List Char} {x : Option String}
    (h : matchRegionEnd ci seps cs = some x) :
    cs = [] ∨ ∃ sep r, sep ∈ seps ∧ cs = sep :: r ∧ RegionShape ci r := by
  cases cs with
  | nil => exact Or.inl rfl
  | cons sep rest =>
    simp only [matchRegionEnd] at h
    by_cases hsep : seps.contains sep = true
    · rw [if_pos hsep] at h
      have hmem : sep ∈ seps := mem_of_contains hsep
      rcases h3 : splitExact 3 (capChar ci) rest with _ | ⟨r3, b3⟩
      · rw [h3] at h
        rcases h2 : splitExact 2 (capChar ci) rest with _ | ⟨r2, b2⟩
        · rw [h2] at h
          rcases hd : splitExact 3 isDigit09 rest with _ | ⟨rd, bd⟩
          · rw [hd] at h
            exact absurd h (by simp)
          · cases bd with
            | nil =>
              obtain ⟨hr, hl, hall⟩ := splitExact_eq hd
              rw [List.append_nil] at hr
              subst hr
              exact Or.inr ⟨sep, rest, hmem, rfl, Or.inr ⟨hl, hall⟩⟩
            | cons bd1 bdr =>
              rw [hd] at h
              exact absurd h (by simp)
        · cases b2 with
          | nil =>
            obtain ⟨hr, hl, hall⟩ := splitExact_eq h2
            rw [List.append_nil] at hr
            subst hr
            exact Or.inr ⟨sep, rest, hmem, rfl, Or.inl ⟨Or.inl hl, hall⟩⟩
          | cons b21 b2r =>
            rw [h2] at h
            rcases hd : splitExact 3 isDigit09 rest with _ | ⟨rd, bd⟩
            · rw [hd] at h
              exact absurd h (by simp)
            · cases bd with
              | nil =>
                obtain ⟨hr, hl, hall⟩ := splitExact_eq hd
                rw [List.append_nil] at hr
                subst hr
                exact Or.inr ⟨sep, rest, hmem, rfl, Or.inr ⟨hl, hall⟩⟩
              | cons bd1 bdr =>
                rw [hd] at h
                exact absurd h (by simp)
      · cases b3 with
        | nil =>
          obtain ⟨hr, hl, hall⟩ := splitExact_eq h3
          rw [List.append_nil] at hr
          subst hr
          exact Or.inr ⟨sep, rest, hmem, rfl, Or.inl ⟨Or.inr hl, hall⟩⟩
        | cons b31 b3r =>
          rw [h3] at h
          rcases h2 : splitExact 2 (capChar ci) rest with _ | ⟨r2, b2⟩
          · rw [h2] at h
            rcases hd : splitExact 3 isDigit09 rest with _ | ⟨rd, bd⟩
            · rw [hd] at h
              exact absurd h (by simp)
            · cases bd with
              | nil =>
                obtain ⟨hr, hl, hall⟩ := splitExact_eq hd
                rw [List.append_nil] at hr
                subst hr
                exact Or.inr ⟨sep, rest, hmem, rfl, Or.inr ⟨hl, hall⟩⟩
              | cons bd1 bdr =>
                rw [hd] at h
                exact absurd h (by simp)
          · cases b2 with
            | nil =>
              obtain ⟨hr, hl, hall⟩ := splitExact_eq h2
              rw [List.append_nil] at hr
              subst hr
              exact Or.inr ⟨sep, rest, hmem, rfl, Or.inl ⟨Or.inl hl, hall⟩⟩
            | cons b21 b2r =>
              rw [h2] at h
              rcases hd : splitExact 3 isDigit09 rest with _ | ⟨rd, bd⟩
              · rw [hd] at h
                exact absurd h (by simp)
              · cases bd with
                | nil =>
                  obtain ⟨hr, hl, hall⟩ := splitExact_eq hd
                  rw [List.append_nil] at hr
                  subst hr
                  exact Or.inr ⟨sep, rest, hmem, rfl, Or.inr ⟨hl, hall⟩⟩
                | cons bd1 bdr =>
                  rw [hd] at h
                  exact absurd h (by simp)
    · rw [if_neg hsep] at h
      exact absurd h (by simp)

theorem matchRegionEnd_complete {ci : Bool} {seps cs : List Char}
    (h : cs = [] ∨ ∃ sep r, sep ∈ seps ∧ cs = sep :: r ∧ RegionShape ci r) :
    ∃ x, matchRegionEnd ci seps cs = some x := by
  rcases h with rfl | ⟨sep, r, hmem, rfl, hshape⟩
  · exact ⟨none, rfl⟩
  · simp only [matchRegionEnd]
    rw [if_pos (contains_of_mem hmem)]
    rcases hshape with ⟨hlen, hcap⟩ | ⟨hlen, hdig⟩
    · rcases hlen with h2 | h3
      · have hnone : splitExact 3 (capChar ci) r = none :=
          splitExact_none_of_short (by omega)
        have hsome : splitExact 2 (capChar ci) r = some (r, []) := by
          have := splitExact_of (p := capChar ci) [] hcap
          rwa [List.append_nil, h2] at this
        rw [hnone, hsome]
        exact ⟨some ⟨r⟩, rfl⟩
      · have hsome : splitExact 3 (capChar ci) r = some (r, []) := by
          have := splitExact_of (p := capChar ci) [] hcap
          rwa [List.append_nil, h3] at this
        rw [hsome]
        exact ⟨some ⟨r⟩, rfl⟩
    · have hhead : ∃ d t, r = d :: t := by
        cases r with
        | nil => simp at hlen
        | cons d t => exact ⟨d, t, rfl⟩
      obtain ⟨d, t, rfl⟩ := hhead
      have hcapd : capChar ci d = false :=
        capChar_of_digit (hdig d (List.mem_cons_self d t))
      have h2n : splitExact 2 (capChar ci) (d :: t) = none :=
        splitExact_none_of_head hcapd
      have hsome : splitExact 3 isDigit09 (d :: t) = some (d :: t, []) := by
        have := splitExact_of (p := isDigit09) [] hdig
        rwa [List.append_nil, hlen] at this
      rw [splitExact_none_of_head hcapd, h2n, hsome]
      exact ⟨some ⟨d :: t⟩, rfl⟩

theorem matchScriptAttempt_sound {ci : Bool} {seps cs : List Char}
    {x : Option String × Option String}
    (h : matchScriptAttempt ci seps cs = some x) :
    ∃ sPart rPart, cs = sPart ++ rPart ∧
      (∃ sep s, sep ∈ seps ∧ sPart = sep :: s ∧ ScriptShape ci s) ∧
      (rPart = [] ∨ ∃ sep r, sep ∈ seps ∧ rPart = sep :: r ∧ RegionShape ci r) := by
  cases cs with
  | nil => simp [matchScriptAttempt] at h
  | cons sep rest =>
    simp only [matchScriptAttempt] at h
    by_cases hsep : seps.contains sep = true
    · rw [if_pos hsep] at h
      rcases h1 : splitExact 1 (capChar ci) rest with _ | ⟨a1, rest1⟩
      · simp only [h1] at h
        exact absurd h (by simp)
      · simp only [h1] at h
        rcases h3 : splitExact 3 (langChar ci) rest1 with _ | ⟨t, rest2⟩
        · simp only [h3] at h
          exact absurd h (by simp)
        · simp only [h3] at h
          rcases hre : matchRegionEnd ci seps rest2 with _ | r
          · simp only [hre] at h
            exact absurd h (by simp)
          · obtain ⟨he1, hl1, hc1⟩ := splitExact_eq h1
            obtain ⟨he3, hl3, hc3⟩ := splitExact_eq h3
            obtain ⟨c0, rfl⟩ : ∃ c0, a1 = [c0] := by
              cases a1 with
              | nil => simp at hl1
              | cons c0 tl =>
                cases tl with
                | nil => exact ⟨c0, rfl⟩
                | cons d tl2 => simp at hl1
            refine ⟨sep :: c0 :: t, rest2, ?_, ?_, matchRegionEnd_sound hre⟩
            · rw [he1, he3]
              simp
            · exact ⟨sep, c0 :: t, mem_of_contains hsep, rfl,
                c0, t, rfl, hc1 c0 (by simp), hl3, hc3⟩
    · rw [if_neg hsep] at h
      exact absurd h (by simp)

theorem matchScriptRegionEnd_sound {ci : Bool} {seps cs : List Char}
    {x : Option String × Option String}
    (h : matchScriptRegionEnd ci seps cs = some x) :
    ∃ sPart rPart, cs = sPart ++ rPart ∧
      (sPart = [] ∨ ∃ sep s, sep ∈ seps ∧ sPart = sep :: s ∧ ScriptShape ci s) ∧
      (rPart = [] ∨ ∃ sep r, sep ∈ seps ∧ rPart = sep :: r ∧ RegionShape ci r) := by
  unfold matchScriptRegionEnd at h
  rcases hW : matchScriptAttempt ci seps cs with _ | y
  · simp only [hW] at h
    rcases hre : matchRegionEnd ci seps cs with _ | r
    · simp only [hre] at h
      exact absurd h (by simp)
    · exact ⟨[], cs, (List.nil_append cs).symm, Or.inl rfl, matchRegionEnd_sound hre⟩
  · obtain ⟨sPart, rPart, he, hs, hr⟩ := matchScriptAttempt_sound hW
    exact ⟨sPart, rPart, he, Or.inr hs, hr⟩

theorem matchScriptRegionEnd_complete {ci : Bool} {seps sPart rPart : List Char}
    (hs : sPart = [] ∨ ∃ sep s, sep ∈ seps ∧ sPart = sep :: s ∧ ScriptShape ci s)
    (hr : rPart = [] ∨ ∃ sep r, sep ∈ seps ∧ rPart = sep :: r ∧ RegionShape ci r) :
    ∃ x, matchScriptRegionEnd ci seps (sPart ++ rPart) = some x := by
  rcases hs with rfl | ⟨sep, s, hmem, rfl, c0, t, rfl, hcap, hlen, hall⟩
  · rw [List.nil_append]
    cases hW : matchScriptAttempt ci seps rPart with
    | some y => exact ⟨y, by simp [matchScriptRegionEnd, hW]⟩
    | none =>
      obtain ⟨r, hre⟩ := matchRegionEnd_complete hr
      exact ⟨(none, r), by simp [matchScriptRegionEnd, hW, hre]⟩
  · have hstep : (sep :: c0 :: t) ++ rPart = sep :: (c0 :: (t ++ rPart)) := by simp
    rw [hstep]
    have h1 : splitExact 1 (capChar ci) (c0 :: (t ++ rPart)) = some ([c0], t ++ rPart) := by
      have := splitExact_of (p := capChar ci) (a := [c0]) (t ++ rPart)
        (by intro y hy; rw [List.mem_singleton] at hy; subst hy; exact hcap)
      simpa using this
    have h3 : splitExact 3 (langChar ci) (t ++ rPart) = some (t, rPart) := by
      have := splitExact_of (p := langChar ci) (a := t) rPart hall
      rwa [hlen] at this
    obtain ⟨r, hre⟩ := matchRegionEnd_complete hr
    refine ⟨(some ⟨c0 :: t⟩, r), ?_⟩
    simp [matchScriptRegionEnd, matchScriptAttempt, contains_of_mem hmem, hmem, h1, h3, hre]

theorem matchLangCode_isSome_iff {ci : Bool} {seps cs : List Char} :
    (matchLangCode ci seps cs).isSome = true ↔ GrammarMatch ci seps cs := by
  constructor
  · intro h
    rw [Option.isSome_iff_exists] at h
    obtain ⟨g, hg⟩ := h
    unfold matchLangCode at hg
    rcases h3 : splitExact 3 (langChar ci) cs with _ | ⟨l, rest⟩
    · simp only [h3] at hg
      rcases h2 : splitExact 2 (langChar ci) cs with _ | ⟨l2, rest2⟩
      · simp only [h2] at hg
        exact absurd hg (by simp)
      · simp only [h2] at hg
        rcases hsre : matchScriptRegionEnd ci seps rest2 with _ | ⟨s, r⟩
        · simp only [hsre] at hg
          exact absurd hg (by simp)
        · obtain ⟨he, hl, hc⟩ := splitExact_eq h2
          obtain ⟨sPart, rPart, hrest, hscript, hregion⟩ := matchScriptRegionEnd_sound hsre
          exact ⟨l2, sPart, rPart, by simp [he, hrest, List.append_assoc],
            ⟨Or.inl hl, hc⟩, hscript, hregion⟩
    · rcases hsre : matchScriptRegionEnd ci seps rest with _ | ⟨s, r⟩
      · simp only [h3, hsre] at hg
        rcases h2 : splitExact 2 (langChar ci) cs with _ | ⟨l2, rest2⟩
        · simp only [h2] at hg
          exact absurd hg (by simp)
        · simp only [h2] at hg
          rcases hsre2 : matchScriptRegionEnd ci seps rest2 with _ | ⟨s2, r2⟩
          · simp only [hsre2] at hg
            exact absurd hg (by simp)
          · obtain ⟨he, hl, hc⟩ := splitExact_eq h2
            obtain ⟨sPart, rPart, hrest, hscript, hregion⟩ := matchScriptRegionEnd_sound hsre2
            exact ⟨l2, sPart, rPart, by simp [he, hrest, List.append_assoc],
              ⟨Or.inl hl, hc⟩, hscript, hregion⟩
      · obtain ⟨he, hl, hc⟩ := splitExact_eq h3
        obtain ⟨sPart, rPart, hrest, hscript, hregion⟩ := matchScriptRegionEnd_sound hsre
        exact ⟨l, sPart, rPart, by simp [he, hrest, List.append_assoc],
          ⟨Or.inr hl, hc⟩, hscript, hregion⟩
  · rintro ⟨l, sPart, rPart, rfl, ⟨hlen, hall⟩, hs, hr⟩
    obtain ⟨x, hx⟩ := matchScriptRegionEnd_complete hs hr
    rw [List.append_assoc]
    rcases hlen with h2 | h3
    · have hs2 : splitExact 2 (langChar ci) (l ++ (sPart ++ rPart)) =
          some (l, sPart ++ rPart) := by
        have := splitExact_of (p := langChar ci) (sPart ++ rPart) hall
        rwa [h2] at this
      unfold matchLangCode
      rcases hq : splitExact 3 (langChar ci) (l ++ (sPart ++ rPart)) with _ | ⟨a, b⟩
      · simp [hq, hs2, hx]
      · rcases hq2 : matchScriptRegionEnd ci seps b with _ | y
        · simp [hq, hq2, hs2, hx]
        · simp [hq, hq2]
    · have hs3 : splitExact 3 (langChar ci) (l ++ (sPart ++ rPart)) =
          some (l, sPart ++ rPart) := by
        have := splitExact_of (p := langChar ci) (sPart ++ rPart) hall
        rwa [h3] at this
      unfold matchLangCode
      simp [hs3, hx]

/-- The standard regex test accepts exactly the declarative grammar over the
three separators, case-insensitively. -/
theorem languageCodeRegexTest_iff (s : String) :
    languageCodeRegexTest s = true ↔ GrammarMatch true stdSeps s.data := by
  unfold languageCodeRegexTest
  exact matchLangCode_isSome_iff

/-- The ARB regex test accepts exactly the declarative grammar over the
underscore separator, case-strictly. -/
theorem arbLanguageCodeRegexTest_iff (s : String) :
    arbLanguageCodeRegexTest s = true ↔ GrammarMatch false arbSeps s.data := by
  unfold arbLanguageCodeRegexTest
  exact matchLangCode_isSome_iff

/-! ## Inversion lemmas for structure detection -/

/-- The parent-directory test detectProjectStructure applies, per format. -/
def parentDirTest (p : String) : Bool :=
  if pathExtname p == ".arb" then arbLanguageCodeRegexTest (pathBasename (pathDirname p))
  else languageCodeRegexTest (pathBasename (pathDirname p))

/-- Closed-form equation for detectProjectStructure. -/
theorem detect_eq (fs : FS) (p : String) :
    detectProjectStructure fs p =
      if parentDirTest p = true then
        ⟨.FolderBased, pathDirname (pathDirname p), some (pathBasename (pathDirname p))⟩
      else
        match extractLanguageCodeFromFileName (pathBasenameExt p (pathExtname p))
            (pathExtname p == ".arb") with
        | some code => ⟨.FileBased, pathDirname p, some code⟩
        | none => ⟨.Unknown, pathDirname p, none⟩ := by
  simp only [detectProjectStructure, parentDirTest]

theorem detect_eq_folder {fs : FS} {p : String} (h : parentDirTest p = true) :
    detectProjectStructure fs p =
      ⟨.FolderBased, pathDirname (pathDirname p), some (pathBasename (pathDirname p))⟩ := by
  rw [detect_eq, if_pos h]

theorem detect_folder_inv {fs : FS} {p : String}
    (h : (detectProjectStructure fs p).type = .FolderBased) :
    detectProjectStructure fs p =
      ⟨.FolderBased, pathDirname (pathDirname p), some (pathBasename (pathDirname p))⟩ := by
  by_cases hp : parentDirTest p = true
  · exact detect_eq_folder hp
  · exfalso
    rw [detect_eq, if_neg hp] at h
    rcases hx : extractLanguageCodeFromFileName (pathBasenameExt p (pathExtname p))
        (pathExtname p == ".arb") with _ | code <;> simp only [hx] at h <;> simp at h

theorem detect_file_inv {fs : FS} {p : String}
    (h : (detectProjectStructure fs p).type = .FileBased) :
    parentDirTest p = false ∧ ∃ code,
      extractLanguageCodeFromFileName (pathBasenameExt p (pathExtname p))
        (pathExtname p == ".arb") = some code ∧
      detectProjectStructure fs p = ⟨.FileBased, pathDirname p, some code⟩ := by
  by_cases hp : parentDirTest p = true
  · exfalso
    rw [detect_eq, if_pos hp] at h
    simp at h
  · rw [detect_eq, if_neg hp] at h
    rcases hx : extractLanguageCodeFromFileName (pathBasenameExt p (pathExtname p))
        (pathExtname p == ".arb") with _ | code
    · simp only [hx] at h
      simp at h
    · refine ⟨by simpa using hp, code, rfl, ?_⟩
      rw [detect_eq, if_neg hp]
      simp only [hx]

/-- Codes produced by extraction always pass the regex of their format, so in
particular they are never empty. -/
theorem extract_some_ne_empty {name : String} {b : Bool} {code : String}
    (h : extractLanguageCodeFromFileName name b = some code) : code ≠ "" := by
  cases b
  · simp only [extractLanguageCodeFromFileName, Bool.false_eq_true, if_false] at h
    by_cases ht : languageCodeRegexTest name = true
    · rw [if_pos ht] at h
      obtain rfl : name = code := by simpa using h
      intro hc
      rw [hc] at ht
      exact absurd ht (by decide)
    · rw [if_neg ht] at h
      exact absurd h (by simp)
  · simp only [extractLanguageCodeFromFileName, if_true] at h
    obtain ⟨i, _, _, htest, _⟩ := firstMatchingSuffix_some h
    intro hc
    rw [hc] at htest
    exact absurd htest (by decide)

theorem detect_sourceLanguage_ne_empty {fs : FS} {p sl : String}
    (h : (detectProjectStructure fs p).sourceLanguage = some sl) : sl ≠ "" := by
  rw [detect_eq] at h
  by_cases hp : parentDirTest p = true
  · rw [if_pos hp] at h
    obtain rfl : pathBasename (pathDirname p) = sl := by simpa using h
    intro hcontra
    unfold parentDirTest at hp
    rw [hcontra] at hp
    by_cases harb : (pathExtname p == ".arb") = true
    · rw [if_pos harb] at hp
      exact absurd hp (by decide)
    · rw [if_neg harb] at hp
      exact absurd hp (by decide)
  · rw [if_neg hp] at h
    rcases hx : extractLanguageCodeFromFileName (pathBasenameExt p (pathExtname p))
        (pathExtname p == ".arb") with _ | code
    · simp only [hx] at h
      simp at h
    · simp only [hx] at h
      obtain rfl : code = sl := by simpa using h
      exact extract_some_ne_empty hx

/-! ## Concrete filesystems used to instantiate the claims -/

def fsEmpty : FS := ⟨[], []⟩

/-- A folder-based project: locales/en, locales/fr, locales/de. -/
def fsFolderEx : FS :=
  ⟨["locales", "locales/en", "locales/fr", "locales/de", "locales/en/common.json"],
    [("locales", [⟨"en", true⟩, ⟨"fr", true⟩, ⟨"de", true⟩])]⟩

/-- A file-based project with mixed-case language files. -/
def fsMixedEx : FS :=
  ⟨["i18n/EN.json"],
    [("i18n", [⟨"EN.json", false⟩, ⟨"RU.json", false⟩, ⟨"Fr.json", false⟩, ⟨"de.json", false⟩])]⟩

/-- Language-coded sibling directories around a non-language-coded file. -/
def fsSiblingsEx : FS :=
  ⟨["locales", "locales/fr", "locales/de", "locales/data", "locales/data/common.json"],
    [("locales/data", [⟨"common.json", false⟩]),
      ("locales", [⟨"fr", true⟩, ⟨"de", true⟩, ⟨"data", true⟩])]⟩

/-- A folder-based project whose base directory has no readable listing. -/
def fsNoListingEx : FS :=
  ⟨["locales", "locales/en", "locales/en/app.json"], []⟩

/-- The collision example: fr.json and fr (1).json already exist. -/
def fsCollisionEx : FS := ⟨["i18n/fr.json", "i18n/fr (1).json"], []⟩

/-! ## C1 -/

/-- C1: whenever the immediate parent directory name fully matches the
active language-code grammar (the ARB grammar for .arb sources, the
standard grammar otherwise), detectProjectStructure returns FolderBased
with basePath the grandparent directory and sourceLanguage the parent
directory name in its original casing, regardless of the file's own base
name (so folder detection takes priority over filename inspection). -/
theorem claim_C1_folder_detection_priority (fs : FS) (p : String)
    (h : parentDirTest p = true) :
    detectProjectStructure fs p =
      ⟨.FolderBased, pathDirname (pathDirname p), some (pathBasename (pathDirname p))⟩ :=
  detect_eq_folder h

theorem claim_C1_witness :
    parentDirTest "proj/i18n/En/fr.json" = true ∧
    detectProjectStructure fsEmpty "proj/i18n/En/fr.json" =
      ⟨.FolderBased, "proj/i18n", some "En"⟩ :=
  ⟨by decide,
    (claim_C1_folder_detection_priority fsEmpty "proj/i18n/En/fr.json" (by decide)).trans
      (by decide)⟩

/-! ## C10 -/

/-- C10: structure detection reads nothing from the filesystem: the result
is identical across any two filesystem states, and in particular a file
whose own name and parent directory name encode no language code is
classified Unknown even when language-coded sibling directories exist. -/
theorem claim_C10_detect_is_pure :
    (∀ (fs1 fs2 : FS) (p : String),
      detectProjectStructure fs1 p = detectProjectStructure fs2 p) ∧
    detectProjectStructure fsSiblingsEx "locales/data/common.json" =
      ⟨.Unknown, "locales/data", none⟩ :=
  ⟨fun _ _ _ => rfl, by decide⟩

/-! ## C9 -/

/-- C9: when reading the base directory fails during language enumeration,
the failure is caught and contributes no entries, so the function still
returns a well-defined list (here the empty one) instead of propagating
the error. -/
theorem claim_C9_readdir_error_not_propagated (fs : FS) (p : String)
    (h : readdirSync fs (detectProjectStructure fs p).basePath = none) :
    detectLanguagesFromProject fs p = [] := by
  simp only [detectLanguagesFromProject, h]
  cases htype : (detectProjectStructure fs p).type <;>
    cases hsl : (detectProjectStructure fs p).sourceLanguage <;>
      simp [htype, hsl, sortJS, applyDelete]

theorem claim_C9_witness :
    readdirSync fsNoListingEx
      (detectProjectStructure fsNoListingEx "locales/en/app.json").basePath = none ∧
    detectLanguagesFromProject fsNoListingEx "locales/en/app.json" = [] :=
  ⟨by decide,
    claim_C9_readdir_error_not_propagated fsNoListingEx "locales/en/app.json" (by decide)⟩

/-! ## C4 -/

/-- C4 as stated is false: the claim predicts that with an ARB source the
validator is case-strict and rejects "EN_us", but validateLanguageCode
always consults the case-insensitive standard regex and has no notion of
the active format, so "EN_us" is accepted even though the ARB grammar
rejects it. -/
theorem claim_C4_counterexample :
    validateLanguageCode "EN_us" = true ∧ arbLanguageCodeRegexTest "EN_us" = false := by
  constructor
  · decide
  · decide

/-- C4 amended: validateLanguageCode(code) is true iff code is non-empty
and fully matches the standard case-insensitive grammar, regardless of the
active file format; in particular the wrongly-cased ARB code "EN_us" is
accepted. -/
theorem claim_C4_amended_validate (code : String) :
    (validateLanguageCode code = true ↔
      code ≠ "" ∧ GrammarMatch true stdSeps code.data) ∧
    validateLanguageCode "EN_us" = true := by
  constructor
  · unfold validateLanguageCode
    rw [Bool.and_eq_true]
    constructor
    · rintro ⟨h1, h2⟩
      exact ⟨by simpa using h1, (languageCodeRegexTest_iff code).mp h2⟩
    · rintro ⟨h1, h2⟩
      exact ⟨by simpa using h1, (languageCodeRegexTest_iff code).mpr h2⟩
  · decide

theorem claim_C4_amended_witness :
    "EN_us" ≠ "" ∧ GrammarMatch true stdSeps "EN_us".data :=
  (claim_C4_amended_validate "EN_us").1.mp (by decide)

/-! ## C3 -/

/-- C3: ARB language-code extraction splits the base name on underscores
and scans the right-aligned suffixes of the segments from longest (the
whole name) to shortest (the last segment), returning the first match —
which is therefore the longest matching suffix — and fails exactly when no
suffix matches; e.g. app_en_US yields en_US and my_app_fr yields fr. -/
theorem claim_C3_arb_suffix_extraction (fileName : String) :
    (∀ r, extractLanguageCodeFromFileName fileName true = some r →
      ∃ i, i < (splitOnChar '_' fileName.data).length ∧
        r = ⟨joinWithChar '_' ((splitOnChar '_' fileName.data).drop i)⟩ ∧
        arbLanguageCodeRegexTest r = true ∧
        (∀ j, j < i →
          arbLanguageCodeRegexTest
            ⟨joinWithChar '_' ((splitOnChar '_' fileName.data).drop j)⟩ = false) ∧
        (∀ j, j < (splitOnChar '_' fileName.data).length →
          arbLanguageCodeRegexTest
            ⟨joinWithChar '_' ((splitOnChar '_' fileName.data).drop j)⟩ = true →
          (joinWithChar '_' ((splitOnChar '_' fileName.data).drop j)).length ≤
            r.data.length)) ∧
    (extractLanguageCodeFromFileName fileName true = none ↔
      ∀ i, i < (splitOnChar '_' fileName.data).length →
        arbLanguageCodeRegexTest
          ⟨joinWithChar '_' ((splitOnChar '_' fileName.data).drop i)⟩ = false) ∧
    extractLanguageCodeFromFileName "app_en_US" true = some "en_US" ∧
    extractLanguageCodeFromFileName "my_app_fr" true = some "fr" := by
  refine ⟨?_, ?_, by decide, by decide⟩
  · intro r h
    simp only [extractLanguageCodeFromFileName, if_true] at h
    obtain ⟨i, hi, hr, ht, hmin⟩ := firstMatchingSuffix_some h
    refine ⟨i, hi, hr, ht, hmin, ?_⟩
    intro j hj hjt
    have hij : i ≤ j := by
      by_contra hc
      have := hmin j (by omega)
      rw [hjt] at this
      exact absurd this (by simp)
    have hle := joinWithChar_drop_length_anti '_' (splitOnChar '_' fileName.data) i j hij
    rw [hr]
    exact hle
  · simp only [extractLanguageCodeFromFileName, if_true]
    exact firstMatchingSuffix_none

theorem claim_C3_witness :
    ∃ i, i < (splitOnChar '_' "app_en_US".data).length ∧
      "en_US" = (⟨joinWithChar '_' ((splitOnChar '_' "app_en_US".data).drop i)⟩ : String) ∧
      arbLanguageCodeRegexTest "en_US" = true ∧
      (∀ j, j < i →
        arbLanguageCodeRegexTest
          ⟨joinWithChar '_' ((splitOnChar '_' "app_en_US".data).drop j)⟩ = false) ∧
      (∀ j, j < (splitOnChar '_' "app_en_US".data).length →
        arbLanguageCodeRegexTest
          ⟨joinWithChar '_' ((splitOnChar '_' "app_en_US".data).drop j)⟩ = true →
        (joinWithChar '_' ((splitOnChar '_' "app_en_US".data).drop j)).length ≤
          "en_US".data.length) :=
  (claim_C3_arb_suffix_extraction "app_en_US").1 "en_US" (by decide)

/-! ## C8 -/

/-- Title-case rendering of a subtag: first letter uppercase, rest
lowercase (the spec's canonical script form). -/
def titleCaseStr (s : String) : String :=
  match s.data with
  | [] => ""
  | c :: t => ⟨upperChar c :: t.map lowerChar⟩

/-- Modelled from the spec (canonical form of a standard code): language
subtag lowercased, script subtag title-case, region subtag uppercase, the
present subtags joined with hyphens. -/
def canonicalForm (g : LangGroups) : String :=
  lowerStr g.language
    ++ (match g.script with
        | some s => "-" ++ titleCaseStr s
        | none => "")
    ++ (match g.region with
        | some r => "-" ++ upperStr r
        | none => "")

/-- C8: normalizeLanguageCode returns the canonical hyphen-joined form of
the captured subtags whenever the input matches the standard grammar, and
returns the input unchanged (without failing) otherwise; in particular
ZH-hans-CN normalizes to zh-Hans-CN and invalid-code is returned as-is. -/
theorem claim_C8_normalize_canonical (code : String) :
    (matchLangCode true stdSeps code.data = none → normalizeLanguageCode code = code) ∧
    (∀ g, matchLangCode true stdSeps code.data = some g →
      normalizeLanguageCode code = canonicalForm g) ∧
    normalizeLanguageCode "ZH-hans-CN" = "zh-Hans-CN" ∧
    normalizeLanguageCode "invalid-code" = "invalid-code" := by
  refine ⟨?_, ?_, by decide, by decide⟩
  · intro h
    simp only [normalizeLanguageCode, h]
  · intro g hg
    simp only [normalizeLanguageCode, hg]
    obtain ⟨lang, scr, reg⟩ := g
    cases scr <;> cases reg <;>
      simp [canonicalForm, titleCaseStr, String.append_assoc]

theorem claim_C8_witness :
    normalizeLanguageCode "ZH-hans-CN" =
      canonicalForm ⟨"ZH", some "hans", some "CN"⟩ :=
  (claim_C8_normalize_canonical "ZH-hans-CN").2.1 ⟨"ZH", some "hans", some "CN"⟩ (by decide)

/-! ## C2 -/

/-- Modelled from the spec (FileBased ARB target naming): the prefix is
everything before the first occurrence of the detected source-language
substring in the source base name, and empty when no source language was
detected. -/
def specArbPref (base : String) (sl : Option String) : String :=
  match sl with
  | none => ""
  | some s =>
    match firstIndexOf base.data s.data with
    | some i => ⟨base.data.take i⟩
    | none => ""

/-- C2: for a FileBased ARB source, generateTargetFilePath returns basePath
joined with prefix, token and extension, where the token is the target
language with hyphens replaced by underscores and the prefix is everything
before the first occurrence of the detected source language in the source
base name; in particular lib/l10n/app_en_US.arb with target es maps to
lib/l10n/app_es.arb. -/
theorem claim_C2_filebased_arb_target (fs : FS) (p t : String) :
    (pathExtname p = ".arb" → (detectProjectStructure fs p).type = .FileBased →
      (generateTargetFilePath fs p t).1 =
        pathJoin (detectProjectStructure fs p).basePath
          (specArbPref (pathBasenameExt p (pathExtname p))
              (detectProjectStructure fs p).sourceLanguage
            ++ replaceHyphens t ++ pathExtname p)) ∧
    (generateTargetFilePath fs "lib/l10n/app_en_US.arb" "es").1 = "lib/l10n/app_es.arb" := by
  constructor
  · intro hext htype
    obtain ⟨hp, code, hx, hdet⟩ := detect_file_inv htype
    simp only [generateTargetFilePath, hdet, hext, specArbPref]
    rcases hidx : firstIndexOf (pathBasenameExt p ".arb").data code.data with _ | i
    · rfl
    · by_cases hi : 0 < i
      · simp [hi]
      · obtain rfl : i = 0 := by omega
        simp
  · simp only [generateTargetFilePath]
    rfl

theorem claim_C2_witness :
    pathExtname "lib/l10n/app_en_US.arb" = ".arb" ∧
    (detectProjectStructure fsEmpty "lib/l10n/app_en_US.arb").type = .FileBased ∧
    (generateTargetFilePath fsEmpty "lib/l10n/app_en_US.arb" "es").1 =
      pathJoin (detectProjectStructure fsEmpty "lib/l10n/app_en_US.arb").basePath
        (specArbPref
            (pathBasenameExt "lib/l10n/app_en_US.arb" (pathExtname "lib/l10n/app_en_US.arb"))
            (detectProjectStructure fsEmpty "lib/l10n/app_en_US.arb").sourceLanguage
          ++ replaceHyphens "es" ++ pathExtname "lib/l10n/app_en_US.arb") :=
  ⟨by decide, by decide,
    (claim_C2_filebased_arb_target fsEmpty "lib/l10n/app_en_US.arb" "es").1
      (by decide) (by decide)⟩

/-! ## C6 -/

theorem pathJoin_ne_empty_left {a : String} (b : String) (ha : a ≠ "") :
    pathJoin a b ≠ "" := by
  unfold pathJoin
  by_cases h1 : a = ""
  · exact absurd h1 ha
  · rw [if_neg h1]
    by_cases h2 : b = ""
    · rw [if_pos h2]
      exact ha
    · rw [if_neg h2]
      by_cases h3 : a = "."
      · rw [if_pos h3]
        exact h2
      · rw [if_neg h3]
        by_cases h4 : a.data.getLast? = some '/'
        · rw [if_pos h4]
          intro hc
          have h5 := congrArg String.data hc
          simp only [String.data_append] at h5
          rcases List.append_eq_nil.mp h5 with ⟨hda, _⟩
          exact h1 (String.ext hda)
        · rw [if_neg h4]
          intro hc
          have h5 := congrArg String.data hc
          simp only [String.data_append, List.append_assoc] at h5
          rcases List.append_eq_nil.mp h5 with ⟨hda, _⟩
          exact h1 (String.ext hda)

/-- C6: for a FolderBased source, generateTargetFilePath returns
basePath/token/sourceBaseName-with-extension, and as a side effect the
directory basePath/token exists afterwards: if it already existed the
filesystem is unchanged (creating an existing directory is no error), and
if it was absent it is created together with all its missing ancestors. -/
theorem claim_C6_folderbased_target_and_mkdir (fs : FS) (p t : String)
    (h : (detectProjectStructure fs p).type = .FolderBased) :
    (generateTargetFilePath fs p t).1 =
      pathJoin
        (pathJoin (detectProjectStructure fs p).basePath
          (if pathExtname p == ".arb" then replaceHyphens t else t))
        (pathBasenameExt p (pathExtname p) ++ pathExtname p) ∧
    existsSync (generateTargetFilePath fs p t).2
      (pathJoin (detectProjectStructure fs p).basePath
        (if pathExtname p == ".arb" then replaceHyphens t else t)) = true ∧
    (existsSync fs (pathJoin (detectProjectStructure fs p).basePath
        (if pathExtname p == ".arb" then replaceHyphens t else t)) = true →
      (generateTargetFilePath fs p t).2 = fs) ∧
    (existsSync fs (pathJoin (detectProjectStructure fs p).basePath
        (if pathExtname p == ".arb" then replaceHyphens t else t)) = false →
      ∀ a ∈ ancestorPaths (pathJoin (detectProjectStructure fs p).basePath
          (if pathExtname p == ".arb" then replaceHyphens t else t)),
        existsSync (generateTargetFilePath fs p t).2 a = true) := by
  have hdet := detect_folder_inv h
  have hbase : (detectProjectStructure fs p).basePath = pathDirname (pathDirname p) := by
    rw [hdet]
  have htd : pathJoin (detectProjectStructure fs p).basePath
      (if pathExtname p == ".arb" then replaceHyphens t else t) ≠ "" := by
    rw [hbase]
    exact pathJoin_ne_empty_left _ (pathDirname_ne_empty (pathDirname p))
  rw [hbase] at htd
  refine ⟨?_, ?_, ?_, ?_⟩
  · simp only [generateTargetFilePath, hdet]
  · simp only [generateTargetFilePath, hdet]
    by_cases hex : existsSync fs (pathJoin (pathDirname (pathDirname p))
        (if pathExtname p == ".arb" then replaceHyphens t else t)) = true
    · rw [if_pos hex]
      exact hex
    · rw [if_neg hex]
      rw [existsSync_mkdirSyncRecursive]
      exact Or.inr (mem_ancestorPaths_self htd)
  · intro hex
    rw [hbase] at hex
    simp only [generateTargetFilePath, hdet]
    rw [if_pos hex]
  · intro hex a ha
    rw [hbase] at hex ha
    simp only [generateTargetFilePath, hdet]
    rw [if_neg (by rw [hex]; simp)]
    rw [existsSync_mkdirSyncRecursive]
    exact Or.inr ha

theorem claim_C6_witness :
    (detectProjectStructure fsFolderEx "locales/en/common.json").type = .FolderBased ∧
    ((generateTargetFilePath fsFolderEx "locales/en/common.json" "fr").1 =
      pathJoin
        (pathJoin (detectProjectStructure fsFolderEx "locales/en/common.json").basePath
          (if pathExtname "locales/en/common.json" == ".arb"
            then replaceHyphens "fr" else "fr"))
        (pathBasenameExt "locales/en/common.json" (pathExtname "locales/en/common.json")
          ++ pathExtname "locales/en/common.json") ∧
    existsSync (generateTargetFilePath fsFolderEx "locales/en/common.json" "fr").2
      (pathJoin (detectProjectStructure fsFolderEx "locales/en/common.json").basePath
        (if pathExtname "locales/en/common.json" == ".arb"
          then replaceHyphens "fr" else "fr")) = true ∧
    (existsSync fsFolderEx
        (pathJoin (detectProjectStructure fsFolderEx "locales/en/common.json").basePath
          (if pathExtname "locales/en/common.json" == ".arb"
            then replaceHyphens "fr" else "fr")) = true →
      (generateTargetFilePath fsFolderEx "locales/en/common.json" "fr").2 = fsFolderEx) ∧
    (existsSync fsFolderEx
        (pathJoin (detectProjectStructure fsFolderEx "locales/en/common.json").basePath
          (if pathExtname "locales/en/common.json" == ".arb"
            then replaceHyphens "fr" else "fr")) = false →
      ∀ a ∈ ancestorPaths
          (pathJoin (detectProjectStructure fsFolderEx "locales/en/common.json").basePath
            (if pathExtname "locales/en/common.json" == ".arb"
              then replaceHyphens "fr" else "fr")),
        existsSync (generateTargetFilePath fsFolderEx "locales/en/common.json" "fr").2 a
          = true)) :=
  ⟨by decide,
    claim_C6_folderbased_target_and_mkdir fsFolderEx "locales/en/common.json" "fr" (by decide)⟩

theorem applyDelete_nodup {o : Option String} {s : List String} (h : s.Nodup) :
    (applyDelete o s).Nodup := by
  cases o with
  | none => exact h
  | some sl =>
    by_cases h0 : sl = ""
    · simpa [applyDelete, h0] using h
    · simpa [applyDelete, h0] using h.filter _

theorem not_mem_applyDelete_some {sl : String} {s : List String} (h : sl ≠ "") :
    sl ∉ applyDelete (some sl) s := by
  simp [applyDelete, h, List.mem_filter]

/-! ## C7 -/

/-- C7: detectLanguagesFromProject returns a de-duplicated list ordered
ascending under the case-insensitive locale comparator (original casing of
each entry preserved, as the mixed-case example shows), excluding the
detected source language, and returns the empty list whenever the detected
structure is Unknown; in the folder-based example with sibling folders fr
and de next to source folder en it returns exactly de then fr. -/
theorem claim_C7_enumeration_output (fs : FS) (p : String) :
    ((detectProjectStructure fs p).type = .Unknown →
      detectLanguagesFromProject fs p = []) ∧
    (detectLanguagesFromProject fs p).Pairwise leBase ∧
    (detectLanguagesFromProject fs p).Nodup ∧
    (∀ sl, (detectProjectStructure fs p).sourceLanguage = some sl →
      sl ∉ detectLanguagesFromProject fs p) ∧
    detectLanguagesFromProject fsFolderEx "locales/en/common.json" = ["de", "fr"] ∧
    detectLanguagesFromProject fsMixedEx "i18n/EN.json" = ["de", "Fr", "RU"] := by
  refine ⟨?_, ?_, ?_, ?_, by decide, by decide⟩
  · intro h
    simp only [detectLanguagesFromProject, h]
    cases hsl : (detectProjectStructure fs p).sourceLanguage <;>
      simp [hsl, sortJS, applyDelete]
  · simp only [detectLanguagesFromProject]
    exact sortJS_pairwise _
  · simp only [detectLanguagesFromProject]
    rw [(sortJS_perm _).nodup_iff]
    exact applyDelete_nodup (nodup_foldl_insertNew _ [] List.nodup_nil)
  · intro sl hsl
    have hne := detect_sourceLanguage_ne_empty hsl
    simp only [detectLanguagesFromProject, hsl]
    intro hmem
    rw [(sortJS_perm _).mem_iff] at hmem
    exact not_mem_applyDelete_some hne hmem

theorem claim_C7_witness :
    ((detectProjectStructure fsSiblingsEx "locales/data/common.json").type = .Unknown ∧
      detectLanguagesFromProject fsSiblingsEx "locales/data/common.json" = []) ∧
    ((detectProjectStructure fsFolderEx "locales/en/common.json").sourceLanguage = some "en" ∧
      "en" ∉ detectLanguagesFromProject fsFolderEx "locales/en/common.json") :=
  ⟨⟨by decide,
      (claim_C7_enumeration_output fsSiblingsEx "locales/data/common.json").1 (by decide)⟩,
    ⟨by decide,
      (claim_C7_enumeration_output fsFolderEx "locales/en/common.json").2.2.2.1 "en"
        (by decide)⟩⟩

/-! ## C5 -/

/-- C5: getUniqueFilePath returns a non-existing path unchanged; an existing
path is replaced by the first counter-suffixed candidate, trying counters
1, 2, 3 and so on in increasing order and returning the first candidate at
which no file exists; with fr.json and fr (1).json existing, fr.json is
mapped to fr (2).json.  The embedding is a pure function of the filesystem
snapshot and the input path, so repeated calls against a stable filesystem
return the same output. -/
theorem claim_C5_unique_path (fs : FS) (p : String) :
    (existsSync fs p = false → getUniqueFilePath fs p = p) ∧
    (existsSync fs p = true →
      ∃ n, 1 ≤ n ∧
        getUniqueFilePath fs p =
          uniqueCandidate (pathDirname p) (pathBasenameExt p (pathExtname p))
            (pathExtname p) n ∧
        existsSync fs (uniqueCandidate (pathDirname p) (pathBasenameExt p (pathExtname p))
          (pathExtname p) n) = false ∧
        ∀ m, 1 ≤ m → m < n →
          existsSync fs (uniqueCandidate (pathDirname p) (pathBasenameExt p (pathExtname p))
            (pathExtname p) m) = true) ∧
    getUniqueFilePath fsCollisionEx "i18n/fr.json" = "i18n/fr (2).json" := by
  refine ⟨?_, ?_, by decide⟩
  · intro h
    unfold getUniqueFilePath
    rw [if_pos (by simp [h])]
  · intro h
    unfold getUniqueFilePath
    rw [if_neg (by simp [h])]
    obtain ⟨k, hk1, hk2, hk3⟩ :=
      exists_free_uniqueCandidate fs (pathDirname p) (pathBasenameExt p (pathExtname p))
        (pathExtname p)
    obtain ⟨m, hm1, hm2, hm3, hm4⟩ :=
      findUniqueAux_spec fs (pathDirname p) (pathBasenameExt p (pathExtname p))
        (pathExtname p) (fs.paths.length + 1) 1 ⟨k, hk1, by omega, hk3⟩
    exact ⟨m, hm1, hm2, hm3, fun j hj1 hj2 => hm4 j hj1 hj2⟩

theorem claim_C5_witness :
    existsSync fsCollisionEx "i18n/fr.json" = true ∧
    ∃ n, 1 ≤ n ∧
      getUniqueFilePath fsCollisionEx "i18n/fr.json" =
        uniqueCandidate (pathDirname "i18n/fr.json")
          (pathBasenameExt "i18n/fr.json" (pathExtname "i18n/fr.json"))
          (pathExtname "i18n/fr.json") n ∧
      existsSync fsCollisionEx
        (uniqueCandidate (pathDirname "i18n/fr.json")
          (pathBasenameExt "i18n/fr.json" (pathExtname "i18n/fr.json"))
          (pathExtname "i18n/fr.json") n) = false ∧
      ∀ m, 1 ≤ m → m < n →
        existsSync fsCollisionEx
          (uniqueCandidate (pathDirname "i18n/fr.json")
            (pathBasenameExt "i18n/fr.json" (pathExtname "i18n/fr.json"))
            (pathExtname "i18n/fr.json") m) = true :=
  ⟨by decide, (claim_C5_unique_path fsCollisionEx "i18n/fr.json").2.1 (by decide)⟩

end I18n
